import Mathlib

/-
Verification of the Schwarzschild null-geodesic integrator of the
Black_Hole_Assembly repository. The embedding below translates the 2D CPU
solver (struct BlackHole, struct Ray, geodesicRHS, addState, rk4Step,
Ray::step) into Lean over the real numbers: every formula is taken from the
source, with machine floating point read as exact real arithmetic.
-/

namespace BlackHoleSim

open Real

/-- Gravitational constant of the source (GRAVITATIONAL_CONSTANT). -/
noncomputable def G : ℝ := 6.67430e-11

/-- Speed of light of the source (SPEED_OF_LIGHT), bound to the global c. -/
noncomputable def c : ℝ := 299792458

/-- Embedding of vector_distance_squared from physics_asm.s: the squared
distance (x2-x1)^2 + (y2-y1)^2 + (z2-z1)^2 between two 3D points, called
through the PhysicsASM wrapper in the Ray constructor. -/
noncomputable def DistanceSquared (x1 y1 z1 x2 y2 z2 : ℝ) : ℝ :=
  (x2 - x1) * (x2 - x1) + (y2 - y1) * (y2 - y1) + (z2 - z1) * (z2 - z1)

/-- Real-valued model of the C library function atan2(y, x): the argument of
the complex number x + i y, with the standard range (-pi, pi]. -/
noncomputable def atan2 (y x : ℝ) : ℝ := Complex.arg ⟨x, y⟩

/-- The black hole of the source: position, mass and the derived
Schwarzschild radius r_s (the uninitialized, unused field radius is
omitted). -/
structure BlackHole where
  position : ℝ × ℝ × ℝ
  mass : ℝ
  r_s : ℝ

/-- Embedding of the BlackHole constructor: stores the mass and derives
r_s = 2 G m / c^2. -/
noncomputable def BlackHole.create (pos : ℝ × ℝ × ℝ) (m : ℝ) : BlackHole :=
  { position := pos, mass := m, r_s := 2 * G * m / (c * c) }

/-- The global black hole SagA of the source, of mass 8.54e36 kg. -/
noncomputable def SagA : BlackHole := BlackHole.create (0, 0, 0) 8.54e36

/-- The photon state of the source struct Ray: cached Cartesian position,
polar state, trail of past positions, and the conserved quantities E, L. -/
structure Ray where
  x : ℝ
  y : ℝ
  r : ℝ
  phi : ℝ
  dr : ℝ
  dphi : ℝ
  trail : List (ℝ × ℝ)
  E : ℝ
  L : ℝ

/-- Embedding of the Ray constructor: converts the Cartesian position and
direction to the polar state, computes the conserved quantities from the
metric factor f = 1 - r_s/r of the global SagA, and starts the trail at the
initial position. -/
noncomputable def Ray.create (pos dir : ℝ × ℝ) : Ray :=
  let x := pos.1
  let y := pos.2
  let distSq := DistanceSquared x y 0 0 0 0
  let r := Real.sqrt distSq
  let phi := atan2 y x
  let dr := dir.1 * Real.cos phi + dir.2 * Real.sin phi
  let dphi := (-dir.1 * Real.sin phi + dir.2 * Real.cos phi) / r
  let L := r * r * dphi
  let f := 1 - SagA.r_s / r
  let dt := Real.sqrt (dr * dr / (f * f) + r * r * dphi * dphi / f)
  let E := f * dt
  { x := x, y := y, r := r, phi := phi, dr := dr, dphi := dphi,
    trail := [(x, y)], E := E, L := L }

/-- The 4-vector state used as double[4] by the integrator. -/
@[ext]
structure Vec4 where
  v0 : ℝ
  v1 : ℝ
  v2 : ℝ
  v3 : ℝ

/-- Embedding of geodesicRHS: the right-hand side of the first-order
reduction of the Schwarzschild null-geodesic equations, reading r, dr, dphi
and the stored conserved E from the photon. -/
noncomputable def geodesicRHS (ray : Ray) (rs : ℝ) : Vec4 :=
  let r := ray.r
  let dr := ray.dr
  let dphi := ray.dphi
  let E := ray.E
  let f := 1 - rs / r
  let dtdl := E / f
  { v0 := dr
    v1 := dphi
    v2 := -(rs / (2 * r * r)) * f * (dtdl * dtdl)
            + (rs / (2 * r * r * f)) * (dr * dr)
            + (r - rs) * (dphi * dphi)
    v3 := -2 * dr * dphi / r }

/-- Embedding of addState: out[i] = a[i] + b[i] * factor componentwise. -/
noncomputable def addState (a b : Vec4) (factor : ℝ) : Vec4 :=
  { v0 := a.v0 + b.v0 * factor
    v1 := a.v1 + b.v1 * factor
    v2 := a.v2 + b.v2 * factor
    v3 := a.v3 + b.v3 * factor }

/-- Embedding of rk4Step: one classical 4-stage Runge-Kutta update of
(r, phi, dr, dphi); the intermediate stage photons are copies of the input
photon with only the four polar-state fields replaced, so every stage reads
the same stored E. -/
noncomputable def rk4Step (ray : Ray) (dlam rs : ℝ) : Ray :=
  let y0 : Vec4 := { v0 := ray.r, v1 := ray.phi, v2 := ray.dr, v3 := ray.dphi }
  let k1 := geodesicRHS ray rs
  let t1 := addState y0 k1 (dlam / 2)
  let r2 : Ray := { ray with r := t1.v0, phi := t1.v1, dr := t1.v2, dphi := t1.v3 }
  let k2 := geodesicRHS r2 rs
  let t2 := addState y0 k2 (dlam / 2)
  let r3 : Ray := { ray with r := t2.v0, phi := t2.v1, dr := t2.v2, dphi := t2.v3 }
  let k3 := geodesicRHS r3 rs
  let t3 := addState y0 k3 dlam
  let r4 : Ray := { ray with r := t3.v0, phi := t3.v1, dr := t3.v2, dphi := t3.v3 }
  let k4 := geodesicRHS r4 rs
  { ray with
    r := ray.r + dlam / 6 * (k1.v0 + 2 * k2.v0 + 2 * k3.v0 + k4.v0)
    phi := ray.phi + dlam / 6 * (k1.v1 + 2 * k2.v1 + 2 * k3.v1 + k4.v1)
    dr := ray.dr + dlam / 6 * (k1.v2 + 2 * k2.v2 + 2 * k3.v2 + k4.v2)
    dphi := ray.dphi + dlam / 6 * (k1.v3 + 2 * k2.v3 + 2 * k3.v3 + k4.v3) }

/-- Embedding of Ray::step: if the photon is at or inside the horizon the
call returns immediately; otherwise it integrates one RK4 step, recomputes
the cached Cartesian position from the new polar state, and appends that
position to the trail. -/
noncomputable def Ray.step (ray : Ray) (dlam rs : ℝ) : Ray :=
  if ray.r ≤ rs then ray
  else
    let stepped := rk4Step ray dlam rs
    let x := stepped.r * Real.cos stepped.phi
    let y := stepped.r * Real.sin stepped.phi
    { stepped with x := x, y := y, trail := stepped.trail ++ [(x, y)] }

/-- The polar-to-Cartesian conversion used by Ray::step to refresh the
cached position: (r cos phi, r sin phi). -/
noncomputable def toCartesian (r phi : ℝ) : ℝ × ℝ :=
  (r * Real.cos phi, r * Real.sin phi)

/-- n simulation ticks of one photon: the per-frame loop of main calls
Ray::step once per frame with a fixed dlam and rs. -/
noncomputable def stepN (dlam rs : ℝ) (n : ℕ) (ray : Ray) : Ray :=
  (fun s => Ray.step s dlam rs)^[n] ray

/-- A sample photon state used to instantiate hypotheses at concrete inputs. -/
noncomputable def sampleRay : Ray :=
  { x := 2, y := 0, r := 2, phi := 0, dr := 3, dphi := 4, trail := [(2, 0)], E := 5, L := 6 }

/-- A sample photon state already inside the horizon (r = 1). -/
noncomputable def capturedRay : Ray :=
  { x := 1, y := 0, r := 1, phi := 0, dr := -1, dphi := 0, trail := [(1, 0)], E := 5, L := 0 }

theorem rk4Step_E (ray : Ray) (dlam rs : ℝ) : (rk4Step ray dlam rs).E = ray.E := rfl

theorem rk4Step_L (ray : Ray) (dlam rs : ℝ) : (rk4Step ray dlam rs).L = ray.L := rfl

theorem rk4Step_x (ray : Ray) (dlam rs : ℝ) : (rk4Step ray dlam rs).x = ray.x := rfl

theorem rk4Step_y (ray : Ray) (dlam rs : ℝ) : (rk4Step ray dlam rs).y = ray.y := rfl

theorem rk4Step_trail (ray : Ray) (dlam rs : ℝ) : (rk4Step ray dlam rs).trail = ray.trail := rfl

theorem step_of_frozen (ray : Ray) (dlam rs : ℝ) (h : ray.r ≤ rs) :
    ray.step dlam rs = ray := by
  unfold Ray.step
  rw [if_pos h]

theorem step_of_live (ray : Ray) (dlam rs : ℝ) (h : rs < ray.r) :
    ray.step dlam rs =
      { rk4Step ray dlam rs with
          x := (rk4Step ray dlam rs).r * Real.cos (rk4Step ray dlam rs).phi
          y := (rk4Step ray dlam rs).r * Real.sin (rk4Step ray dlam rs).phi
          trail := ray.trail ++
            [((rk4Step ray dlam rs).r * Real.cos (rk4Step ray dlam rs).phi,
              (rk4Step ray dlam rs).r * Real.sin (rk4Step ray dlam rs).phi)] } := by
  unfold Ray.step
  rw [if_neg (not_le.mpr h)]
  rfl

theorem step_E (ray : Ray) (dlam rs : ℝ) : (ray.step dlam rs).E = ray.E := by
  rcases le_or_lt ray.r rs with h | h
  · rw [step_of_frozen ray dlam rs h]
  · rw [step_of_live ray dlam rs h]
    rfl

theorem step_L (ray : Ray) (dlam rs : ℝ) : (ray.step dlam rs).L = ray.L := by
  rcases le_or_lt ray.r rs with h | h
  · rw [step_of_frozen ray dlam rs h]
  · rw [step_of_live ray dlam rs h]
    rfl

theorem stepN_fixed (ray : Ray) (dlam rs : ℝ) (h : ray.r ≤ rs) (n : ℕ) :
    stepN dlam rs n ray = ray := by
  unfold stepN
  exact Function.iterate_fixed (f := fun s => Ray.step s dlam rs)
    (step_of_frozen ray dlam rs h) n

theorem stepN_E (ray : Ray) (dlam rs : ℝ) (n : ℕ) : (stepN dlam rs n ray).E = ray.E := by
  induction n with
  | zero => rfl
  | succ k ih =>
      unfold stepN at ih ⊢
      rw [Function.iterate_succ_apply', step_E]
      exact ih

theorem stepN_L (ray : Ray) (dlam rs : ℝ) (n : ℕ) : (stepN dlam rs n ray).L = ray.L := by
  induction n with
  | zero => rfl
  | succ k ih =>
      unfold stepN at ih ⊢
      rw [Function.iterate_succ_apply', step_L]
      exact ih

theorem geodesicRHS_ignores (ray : Ray) (rs a b l : ℝ) (t : List (ℝ × ℝ)) :
    geodesicRHS { ray with x := a, y := b, trail := t, L := l } rs = geodesicRHS ray rs := rfl

/-- C1: the conserved quantities E and L stored at construction are never
mutated afterwards: rk4Step changes only the four polar-state fields (x, y,
trail, E, L are untouched), Ray.step never changes E or L, geodesicRHS is
insensitive to the fields other than the polar state and the stored E, and
hence E and L keep their creation values after any number of simulation
ticks. -/
theorem C1_conserved_fields_never_mutated (ray : Ray) (dlam rs : ℝ) :
    ((rk4Step ray dlam rs).E = ray.E ∧ (rk4Step ray dlam rs).L = ray.L ∧
      (rk4Step ray dlam rs).x = ray.x ∧ (rk4Step ray dlam rs).y = ray.y ∧
      (rk4Step ray dlam rs).trail = ray.trail) ∧
    ((ray.step dlam rs).E = ray.E ∧ (ray.step dlam rs).L = ray.L) ∧
    (∀ (a b l : ℝ) (t : List (ℝ × ℝ)),
      geodesicRHS { ray with x := a, y := b, trail := t, L := l } rs = geodesicRHS ray rs) ∧
    (∀ n : ℕ, (stepN dlam rs n ray).E = ray.E ∧ (stepN dlam rs n ray).L = ray.L) :=
  ⟨⟨rk4Step_E ray dlam rs, rk4Step_L ray dlam rs, rk4Step_x ray dlam rs,
      rk4Step_y ray dlam rs, rk4Step_trail ray dlam rs⟩,
    ⟨step_E ray dlam rs, step_L ray dlam rs⟩,
    fun a b l t => geodesicRHS_ignores ray rs a b l t,
    fun n => ⟨stepN_E ray dlam rs n, stepN_L ray dlam rs n⟩⟩

/-- C5: a photon at or inside the horizon is frozen: Ray.step leaves every
field (r, phi, dr, dphi, E, L, x, y and the whole trail) unchanged, for every
step size and for arbitrarily many further calls. -/
theorem C5_captured_photon_step_noop (ray : Ray) (rs : ℝ) (h : ray.r ≤ rs) :
    (∀ dlam : ℝ, ray.step dlam rs = ray) ∧
    (∀ (n : ℕ) (dlam : ℝ), stepN dlam rs n ray = ray) :=
  ⟨fun dlam => step_of_frozen ray dlam rs h,
    fun n dlam => stepN_fixed ray dlam rs h n⟩

/-- Witness for C5 at a concrete captured photon (r = 1 inside rs = 2). -/
theorem C5_captured_photon_step_noop_witness :
    (∀ dlam : ℝ, capturedRay.step dlam 2 = capturedRay) ∧
    (∀ (n : ℕ) (dlam : ℝ), stepN dlam 2 n capturedRay = capturedRay) :=
  C5_captured_photon_step_noop capturedRay 2 (by norm_num [capturedRay])

/-- C9: above the horizon, Ray.step performs the RK4 update, refreshes the
cached Cartesian position as (r cos phi, r sin phi) of the updated polar
state, and appends exactly that point to the trail, leaving all previously
recorded entries in place. -/
theorem C9_step_appends_one_trail_point (ray : Ray) (dlam rs : ℝ) (h : rs < ray.r) :
    ray.step dlam rs =
      { rk4Step ray dlam rs with
          x := (rk4Step ray dlam rs).r * Real.cos (rk4Step ray dlam rs).phi
          y := (rk4Step ray dlam rs).r * Real.sin (rk4Step ray dlam rs).phi
          trail := ray.trail ++
            [((rk4Step ray dlam rs).r * Real.cos (rk4Step ray dlam rs).phi,
              (rk4Step ray dlam rs).r * Real.sin (rk4Step ray dlam rs).phi)] } ∧
    (ray.step dlam rs).trail = ray.trail ++ [((ray.step dlam rs).x, (ray.step dlam rs).y)] := by
  constructor
  · exact step_of_live ray dlam rs h
  · rw [step_of_live ray dlam rs h]

/-- Witness for C9 at a concrete photon above the horizon (r = 2, rs = 1). -/
theorem C9_step_appends_one_trail_point_witness :
    sampleRay.step 1 1 =
      { rk4Step sampleRay 1 1 with
          x := (rk4Step sampleRay 1 1).r * Real.cos (rk4Step sampleRay 1 1).phi
          y := (rk4Step sampleRay 1 1).r * Real.sin (rk4Step sampleRay 1 1).phi
          trail := sampleRay.trail ++
            [((rk4Step sampleRay 1 1).r * Real.cos (rk4Step sampleRay 1 1).phi,
              (rk4Step sampleRay 1 1).r * Real.sin (rk4Step sampleRay 1 1).phi)] } ∧
    (sampleRay.step 1 1).trail =
      sampleRay.trail ++ [((sampleRay.step 1 1).x, (sampleRay.step 1 1).y)] :=
  C9_step_appends_one_trail_point sampleRay 1 1 (by norm_num [sampleRay])

theorem step_trail_extends (ray : Ray) (dlam rs : ℝ) :
    ∃ t, (ray.step dlam rs).trail = ray.trail ++ t := by
  rcases le_or_lt ray.r rs with h | h
  · exact ⟨[], by rw [step_of_frozen ray dlam rs h, List.append_nil]⟩
  · refine ⟨[((rk4Step ray dlam rs).r * Real.cos (rk4Step ray dlam rs).phi,
        (rk4Step ray dlam rs).r * Real.sin (rk4Step ray dlam rs).phi)], ?_⟩
    rw [step_of_live ray dlam rs h]

/-- C10: the trail starts as the singleton of the creation position, every
step only ever appends at the tail, and hence after any number of ticks the
trail is still headed by the creation position (in particular it is never
empty, truncated or reordered). -/
theorem C10_trail_initial_point_persists (pos dir : ℝ × ℝ) (dlam rs : ℝ) :
    (Ray.create pos dir).trail = [(pos.1, pos.2)] ∧
    (∀ ray : Ray, ∃ t, (ray.step dlam rs).trail = ray.trail ++ t) ∧
    (∀ n : ℕ, ∃ t, (stepN dlam rs n (Ray.create pos dir)).trail = (pos.1, pos.2) :: t) := by
  refine ⟨rfl, fun ray => step_trail_extends ray dlam rs, fun n => ?_⟩
  induction n with
  | zero => exact ⟨[], rfl⟩
  | succ k ih =>
      obtain ⟨t, ht⟩ := ih
      obtain ⟨t2, ht2⟩ := step_trail_extends (stepN dlam rs k (Ray.create pos dir)) dlam rs
      refine ⟨t ++ t2, ?_⟩
      unfold stepN at ht ⊢
      rw [Function.iterate_succ_apply']
      unfold stepN at ht2
      rw [ht2, ht]
      simp

theorem sq_sum_pos (a b : ℝ) (h : ¬(a = 0 ∧ b = 0)) : 0 < a ^ 2 + b ^ 2 := by
  by_contra hle
  push_neg at hle
  have ha2 : a ^ 2 = 0 := le_antisymm (by nlinarith [sq_nonneg b]) (sq_nonneg a)
  have hb2 : b ^ 2 = 0 := le_antisymm (by nlinarith [sq_nonneg a]) (sq_nonneg b)
  exact h ⟨by simpa using sq_eq_zero_iff.mp ha2, by simpa using sq_eq_zero_iff.mp hb2⟩

/-- C2: for every photon state with positive radius, geodesicRHS returns
exactly the 4-vector (dr, dphi, d2r, d2phi) of the spec, with
f = 1 - rs/r, dt = E/f, d2r = -(rs/(2 r^2)) f dt^2 + (rs/(2 r^2 f)) dr^2
+ (r - rs) dphi^2 and d2phi = -2 dr dphi / r, evaluated at the stored E. -/
theorem C2_geodesicRHS_formulas (ray : Ray) (rs : ℝ) (h : 0 < ray.r) :
    geodesicRHS ray rs =
      { v0 := ray.dr
        v1 := ray.dphi
        v2 := -(rs / (2 * ray.r ^ 2)) * (1 - rs / ray.r) * (ray.E / (1 - rs / ray.r)) ^ 2
              + rs / (2 * ray.r ^ 2 * (1 - rs / ray.r)) * ray.dr ^ 2
              + (ray.r - rs) * ray.dphi ^ 2
        v3 := -2 * ray.dr * ray.dphi / ray.r } := by
  unfold geodesicRHS
  ext
  · rfl
  · rfl
  · ring
  · ring

/-- Witness for C2 at a concrete photon state with r = 2 > 0 and rs = 1. -/
theorem C2_geodesicRHS_formulas_witness :
    geodesicRHS sampleRay 1 =
      { v0 := sampleRay.dr
        v1 := sampleRay.dphi
        v2 := -(1 / (2 * sampleRay.r ^ 2)) * (1 - 1 / sampleRay.r)
                * (sampleRay.E / (1 - 1 / sampleRay.r)) ^ 2
              + 1 / (2 * sampleRay.r ^ 2 * (1 - 1 / sampleRay.r)) * sampleRay.dr ^ 2
              + (sampleRay.r - 1) * sampleRay.dphi ^ 2
        v3 := -2 * sampleRay.dr * sampleRay.dphi / sampleRay.r } :=
  C2_geodesicRHS_formulas sampleRay 1 (by norm_num [sampleRay])

/-- C3: the conserved quantities stored at creation are exactly
L = r^2 dphi and E = f sqrt(dr^2/f^2 + r^2 dphi^2 / f) with
f = 1 - rs/r, in terms of the constructed polar state and the global
Schwarzschild radius. -/
theorem C3_conserved_at_creation (pos dir : ℝ × ℝ)
    (h : SagA.r_s < (Ray.create pos dir).r) :
    (Ray.create pos dir).L = (Ray.create pos dir).r ^ 2 * (Ray.create pos dir).dphi ∧
    (Ray.create pos dir).E =
      (1 - SagA.r_s / (Ray.create pos dir).r) *
        Real.sqrt ((Ray.create pos dir).dr ^ 2 / (1 - SagA.r_s / (Ray.create pos dir).r) ^ 2
          + (Ray.create pos dir).r ^ 2 * (Ray.create pos dir).dphi ^ 2
            / (1 - SagA.r_s / (Ray.create pos dir).r)) := by
  constructor
  · show (Ray.create pos dir).r * (Ray.create pos dir).r * (Ray.create pos dir).dphi = _
    ring
  · show (1 - SagA.r_s / (Ray.create pos dir).r) *
        Real.sqrt ((Ray.create pos dir).dr * (Ray.create pos dir).dr
            / ((1 - SagA.r_s / (Ray.create pos dir).r) * (1 - SagA.r_s / (Ray.create pos dir).r))
          + (Ray.create pos dir).r * (Ray.create pos dir).r
            * (Ray.create pos dir).dphi * (Ray.create pos dir).dphi
            / (1 - SagA.r_s / (Ray.create pos dir).r)) = _
    congr 1
    congr 1
    ring

theorem create_r_concrete :
    (Ray.create (3e10, 4e10) (1, 0)).r = 5e10 := by
  show Real.sqrt (DistanceSquared 3e10 4e10 0 0 0 0) = 5e10
  rw [show DistanceSquared 3e10 4e10 0 0 0 0 = 5e10 * 5e10 by unfold DistanceSquared; norm_num]
  exact Real.sqrt_mul_self (by norm_num)

/-- Witness for C3 at the concrete creation position (3e10, 4e10), whose
radius 5e10 lies outside the Schwarzschild radius of SagA. -/
theorem C3_conserved_at_creation_witness :
    SagA.r_s < (Ray.create (3e10, 4e10) (1, 0)).r ∧
    ((Ray.create (3e10, 4e10) (1, 0)).L =
        (Ray.create (3e10, 4e10) (1, 0)).r ^ 2 * (Ray.create (3e10, 4e10) (1, 0)).dphi ∧
      (Ray.create (3e10, 4e10) (1, 0)).E =
        (1 - SagA.r_s / (Ray.create (3e10, 4e10) (1, 0)).r) *
          Real.sqrt ((Ray.create (3e10, 4e10) (1, 0)).dr ^ 2
              / (1 - SagA.r_s / (Ray.create (3e10, 4e10) (1, 0)).r) ^ 2
            + (Ray.create (3e10, 4e10) (1, 0)).r ^ 2 * (Ray.create (3e10, 4e10) (1, 0)).dphi ^ 2
              / (1 - SagA.r_s / (Ray.create (3e10, 4e10) (1, 0)).r))) := by
  have h : SagA.r_s < (Ray.create (3e10, 4e10) (1, 0)).r := by
    rw [create_r_concrete]
    show 2 * G * 8.54e36 / (c * c) < 5e10
    unfold G c
    norm_num
  exact ⟨h, C3_conserved_at_creation (3e10, 4e10) (1, 0) h⟩

/-- C7: the constructor converts the Cartesian position and direction to the
polar state r = sqrt(x^2 + y^2), phi = atan2(y, x), dr the radial projection
of the direction and dphi the tangential component divided by r; away from
the origin the radius is positive, so the division defining dphi is sound. -/
theorem C7_constructor_polar_conversion (pos dir : ℝ × ℝ) (h : pos ≠ (0, 0)) :
    (Ray.create pos dir).r = Real.sqrt (pos.1 ^ 2 + pos.2 ^ 2) ∧
    (Ray.create pos dir).phi = atan2 pos.2 pos.1 ∧
    (Ray.create pos dir).dr =
      dir.1 * Real.cos (atan2 pos.2 pos.1) + dir.2 * Real.sin (atan2 pos.2 pos.1) ∧
    (Ray.create pos dir).dphi =
      (-dir.1 * Real.sin (atan2 pos.2 pos.1) + dir.2 * Real.cos (atan2 pos.2 pos.1))
        / Real.sqrt (pos.1 ^ 2 + pos.2 ^ 2) ∧
    0 < (Ray.create pos dir).r := by
  have hsq : DistanceSquared pos.1 pos.2 0 0 0 0 = pos.1 ^ 2 + pos.2 ^ 2 := by
    unfold DistanceSquared
    ring
  have hr : (Ray.create pos dir).r = Real.sqrt (pos.1 ^ 2 + pos.2 ^ 2) := by
    show Real.sqrt (DistanceSquared pos.1 pos.2 0 0 0 0) = _
    rw [hsq]
  refine ⟨hr, rfl, rfl, ?_, ?_⟩
  · show (-dir.1 * Real.sin (atan2 pos.2 pos.1) + dir.2 * Real.cos (atan2 pos.2 pos.1))
        / Real.sqrt (DistanceSquared pos.1 pos.2 0 0 0 0) = _
    rw [hsq]
  · rw [hr]
    refine Real.sqrt_pos.mpr (sq_sum_pos pos.1 pos.2 fun hc => h (Prod.ext hc.1 hc.2))

/-- Witness for C7 at the concrete position (3, 4) and direction (1, 0). -/
theorem C7_constructor_polar_conversion_witness :
    (Ray.create ((3 : ℝ), (4 : ℝ)) (1, 0)).r = Real.sqrt ((3 : ℝ) ^ 2 + (4 : ℝ) ^ 2) ∧
    (Ray.create ((3 : ℝ), (4 : ℝ)) (1, 0)).phi = atan2 4 3 ∧
    (Ray.create ((3 : ℝ), (4 : ℝ)) (1, 0)).dr =
      1 * Real.cos (atan2 4 3) + 0 * Real.sin (atan2 4 3) ∧
    (Ray.create ((3 : ℝ), (4 : ℝ)) (1, 0)).dphi =
      (-1 * Real.sin (atan2 4 3) + 0 * Real.cos (atan2 4 3))
        / Real.sqrt ((3 : ℝ) ^ 2 + (4 : ℝ) ^ 2) ∧
    0 < (Ray.create ((3 : ℝ), (4 : ℝ)) (1, 0)).r :=
  C7_constructor_polar_conversion (3, 4) (1, 0) (by simp [Prod.ext_iff])

/-- C8: converting a nonzero Cartesian position to polar inside the
constructor and back with toCartesian returns the position exactly, and in
particular within the 1e-4 relative tolerance of the spec. -/
theorem C8_cartesian_round_trip (pos dir : ℝ × ℝ) (h : pos ≠ (0, 0)) :
    toCartesian (Ray.create pos dir).r (Ray.create pos dir).phi = pos ∧
    ((toCartesian (Ray.create pos dir).r (Ray.create pos dir).phi).1 - pos.1) ^ 2
      + ((toCartesian (Ray.create pos dir).r (Ray.create pos dir).phi).2 - pos.2) ^ 2
      ≤ (1e-4) ^ 2 * (pos.1 ^ 2 + pos.2 ^ 2) := by
  have hz : (⟨pos.1, pos.2⟩ : ℂ) ≠ 0 := by
    intro hc
    exact h (Prod.ext (congrArg Complex.re hc) (congrArg Complex.im hc))
  have habs : Complex.abs ⟨pos.1, pos.2⟩ ≠ 0 := Complex.abs.ne_zero hz
  have hr : (Ray.create pos dir).r = Complex.abs ⟨pos.1, pos.2⟩ := by
    show Real.sqrt (DistanceSquared pos.1 pos.2 0 0 0 0) = _
    rw [Complex.abs_apply, Complex.normSq_mk]
    congr 1
    unfold DistanceSquared
    ring
  have hphi : (Ray.create pos dir).phi = Complex.arg ⟨pos.1, pos.2⟩ := rfl
  have hmain : toCartesian (Ray.create pos dir).r (Ray.create pos dir).phi = pos := by
    unfold toCartesian
    rw [hr, hphi, Complex.cos_arg hz, Complex.sin_arg]
    have e1 : Complex.abs ⟨pos.1, pos.2⟩ *
        ((⟨pos.1, pos.2⟩ : ℂ).re / Complex.abs ⟨pos.1, pos.2⟩) = pos.1 := by
      field_simp
    have e2 : Complex.abs ⟨pos.1, pos.2⟩ *
        ((⟨pos.1, pos.2⟩ : ℂ).im / Complex.abs ⟨pos.1, pos.2⟩) = pos.2 := by
      field_simp
    rw [e1, e2]
  refine ⟨hmain, ?_⟩
  rw [hmain]
  simp only [sub_self, ne_eq, OfNat.ofNat_ne_zero, not_false_eq_true, zero_pow, add_zero]
  positivity

/-- Witness for C8 at the concrete position (3, 4) and direction (1, 0). -/
theorem C8_cartesian_round_trip_witness :
    toCartesian (Ray.create ((3 : ℝ), (4 : ℝ)) (1, 0)).r
        (Ray.create ((3 : ℝ), (4 : ℝ)) (1, 0)).phi = (3, 4) ∧
    ((toCartesian (Ray.create ((3 : ℝ), (4 : ℝ)) (1, 0)).r
        (Ray.create ((3 : ℝ), (4 : ℝ)) (1, 0)).phi).1 - (3 : ℝ)) ^ 2
      + ((toCartesian (Ray.create ((3 : ℝ), (4 : ℝ)) (1, 0)).r
          (Ray.create ((3 : ℝ), (4 : ℝ)) (1, 0)).phi).2 - (4 : ℝ)) ^ 2
      ≤ (1e-4) ^ 2 * ((3 : ℝ) ^ 2 + (4 : ℝ) ^ 2) :=
  C8_cartesian_round_trip (3, 4) (1, 0) (by simp [Prod.ext_iff])

/-- Componentwise sum of two 4-vectors, used to state the spec-side RK4. -/
noncomputable def add4 (u v : Vec4) : Vec4 :=
  { v0 := u.v0 + v.v0, v1 := u.v1 + v.v1, v2 := u.v2 + v.v2, v3 := u.v3 + v.v3 }

/-- Scalar multiple of a 4-vector, used to state the spec-side RK4. -/
noncomputable def smul4 (a : ℝ) (v : Vec4) : Vec4 :=
  { v0 := a * v.v0, v1 := a * v.v1, v2 := a * v.v2, v3 := a * v.v3 }

/-- The spec side of the RK4 claim: the geodesic RHS of spec section 4.3
written as a pure function of the 4-vector state y = (r, phi, dr, dphi), the
conserved E and rs. -/
noncomputable def rhsSpec (y : Vec4) (E rs : ℝ) : Vec4 :=
  let r := y.v0
  let dr := y.v2
  let dphi := y.v3
  let f := 1 - rs / r
  let dt := E / f
  { v0 := dr
    v1 := dphi
    v2 := -(rs / (2 * r ^ 2)) * f * dt ^ 2 + rs / (2 * r ^ 2 * f) * dr ^ 2
            + (r - rs) * dphi ^ 2
    v3 := -2 * dr * dphi / r }

/-- The spec side of the RK4 claim: the standard 4-stage Runge-Kutta update
y + (dlam/6)(k1 + 2 k2 + 2 k3 + k4) with k1 = rhs(y),
k2 = rhs(y + (dlam/2) k1), k3 = rhs(y + (dlam/2) k2), k4 = rhs(y + dlam k3),
all stages evaluated at the same conserved E. -/
noncomputable def rk4Spec (y : Vec4) (dlam rs E : ℝ) : Vec4 :=
  let k1 := rhsSpec y E rs
  let k2 := rhsSpec (add4 y (smul4 (dlam / 2) k1)) E rs
  let k3 := rhsSpec (add4 y (smul4 (dlam / 2) k2)) E rs
  let k4 := rhsSpec (add4 y (smul4 dlam k3)) E rs
  add4 y (smul4 (dlam / 6) (add4 k1 (add4 (smul4 2 k2) (add4 (smul4 2 k3) k4))))

theorem geodesicRHS_eq_rhsSpec (s : Ray) (rs : ℝ) :
    geodesicRHS s rs = rhsSpec { v0 := s.r, v1 := s.phi, v2 := s.dr, v3 := s.dphi } s.E rs := by
  simp only [geodesicRHS, rhsSpec]
  ext <;> ring

theorem addState_eq_add4_smul4 (a b : Vec4) (f : ℝ) :
    addState a b f = add4 a (smul4 f b) := by
  simp only [addState, add4, smul4]
  ext <;> ring

/-- C4: one call to rk4Step updates the polar state exactly as the spec RK4
scheme y + (dlam/6)(k1 + 2 k2 + 2 k3 + k4) over the 4-vector
y = (r, phi, dr, dphi), with every stage RHS evaluated at the stored E of
the photon. -/
theorem C4_rk4_step_is_classical_rk4 (ray : Ray) (dlam rs : ℝ) :
    ({ v0 := (rk4Step ray dlam rs).r, v1 := (rk4Step ray dlam rs).phi,
       v2 := (rk4Step ray dlam rs).dr, v3 := (rk4Step ray dlam rs).dphi } : Vec4) =
      rk4Spec { v0 := ray.r, v1 := ray.phi, v2 := ray.dr, v3 := ray.dphi } dlam rs ray.E := by
  simp only [rk4Step, rk4Spec, geodesicRHS_eq_rhsSpec, addState_eq_add4_smul4]
  simp only [add4, smul4]
  ext <;> ring

theorem geodesicRHS_radial (ray : Ray) (rs : ℝ) (h1 : ray.dr = -c) (h2 : ray.dphi = 0)
    (h3 : ray.E = c) : geodesicRHS ray rs = { v0 := -c, v1 := 0, v2 := 0, v3 := 0 } := by
  simp only [geodesicRHS]
  rw [h1, h2, h3]
  ext
  · rfl
  · rfl
  · show -(rs / (2 * ray.r * ray.r)) * (1 - rs / ray.r)
        * (c / (1 - rs / ray.r) * (c / (1 - rs / ray.r)))
        + rs / (2 * ray.r * ray.r * (1 - rs / ray.r)) * (-c * -c) + (ray.r - rs) * (0 * 0) = 0
    rcases eq_or_ne ray.r 0 with hr | hr
    · simp [hr]
    · rcases eq_or_ne (1 - rs / ray.r) 0 with hf | hf
      · rw [hf]
        simp
      · have key : 1 - rs / ray.r = (ray.r - rs) / ray.r := by
          field_simp
        have hf2 : ray.r - rs ≠ 0 := by
          intro h0
          rw [key, h0, zero_div] at hf
          exact hf rfl
        rw [key]
        field_simp
        ring
  · show -2 * -c * 0 / ray.r = 0
    simp

theorem rk4Step_radial (ray : Ray) (dlam rs : ℝ) (h1 : ray.dr = -c) (h2 : ray.dphi = 0)
    (h3 : ray.E = c) :
    (rk4Step ray dlam rs).r = ray.r - dlam * c ∧ (rk4Step ray dlam rs).phi = ray.phi ∧
    (rk4Step ray dlam rs).dr = -c ∧ (rk4Step ray dlam rs).dphi = 0 := by
  refine ⟨?_, ?_, ?_, ?_⟩ <;>
    simp only [rk4Step, addState, geodesicRHS_radial, h1, h2, h3, zero_mul, add_zero,
      mul_zero, neg_neg] <;>
    ring

theorem step_radial (ray : Ray) (dlam rs : ℝ) (h : rs < ray.r) (h1 : ray.dr = -c)
    (h2 : ray.dphi = 0) (h3 : ray.E = c) :
    (ray.step dlam rs).r = ray.r - dlam * c ∧ (ray.step dlam rs).dr = -c ∧
    (ray.step dlam rs).dphi = 0 ∧ (ray.step dlam rs).E = c := by
  obtain ⟨hr, hphi, hdr, hdphi⟩ := rk4Step_radial ray dlam rs h1 h2 h3
  rw [step_of_live ray dlam rs h]
  exact ⟨hr, hdr, hdphi, (rk4Step_E ray dlam rs).trans h3⟩

theorem create_radial_fields :
    (Ray.create (-8e10, 0) (c, 0)).r = 8e10 ∧
    (Ray.create (-8e10, 0) (c, 0)).dr = -c ∧
    (Ray.create (-8e10, 0) (c, 0)).dphi = 0 ∧
    (Ray.create (-8e10, 0) (c, 0)).E = c := by
  have hr : (Ray.create (-8e10, 0) (c, 0)).r = 8e10 := by
    show Real.sqrt (DistanceSquared (-8e10) 0 0 0 0 0) = 8e10
    rw [show DistanceSquared (-8e10) 0 0 0 0 0 = 8e10 * 8e10 by unfold DistanceSquared; norm_num]
    exact Real.sqrt_mul_self (by norm_num)
  have hz : ((⟨-8e10, 0⟩ : ℂ)) ≠ 0 := by
    intro hc
    have h1 : ((⟨-8e10, 0⟩ : ℂ)).re = (0 : ℂ).re := congrArg Complex.re hc
    norm_num [Complex.zero_re] at h1
  have habs : Complex.abs ⟨-8e10, 0⟩ = 8e10 := by
    rw [Complex.abs_apply, Complex.normSq_mk]
    rw [show ((-8e10 : ℝ) * (-8e10) + (0 : ℝ) * 0) = 8e10 * 8e10 by norm_num]
    exact Real.sqrt_mul_self (by norm_num)
  have hcos : Real.cos ((Ray.create (-8e10, 0) (c, 0)).phi) = -1 := by
    show Real.cos (Complex.arg ⟨-8e10, 0⟩) = -1
    rw [Complex.cos_arg hz, habs]
    show (-8e10 : ℝ) / 8e10 = -1
    norm_num
  have hsin : Real.sin ((Ray.create (-8e10, 0) (c, 0)).phi) = 0 := by
    show Real.sin (Complex.arg ⟨-8e10, 0⟩) = 0
    rw [Complex.sin_arg, habs]
    show (0 : ℝ) / 8e10 = 0
    norm_num
  have hdr : (Ray.create (-8e10, 0) (c, 0)).dr = -c := by
    show c * Real.cos ((Ray.create (-8e10, 0) (c, 0)).phi)
        + 0 * Real.sin ((Ray.create (-8e10, 0) (c, 0)).phi) = -c
    rw [hcos, hsin]
    ring
  have hdphi : (Ray.create (-8e10, 0) (c, 0)).dphi = 0 := by
    show (-c * Real.sin ((Ray.create (-8e10, 0) (c, 0)).phi)
        + 0 * Real.cos ((Ray.create (-8e10, 0) (c, 0)).phi)) / (Ray.create (-8e10, 0) (c, 0)).r
        = 0
    rw [hcos, hsin]
    simp
  have hcpos : (0 : ℝ) < c := by
    unfold c
    norm_num
  have hf : (0 : ℝ) < 1 - SagA.r_s / 8e10 := by
    show (0 : ℝ) < 1 - 2 * G * 8.54e36 / (c * c) / 8e10
    unfold G c
    norm_num
  have hfne : (1 - SagA.r_s / 8e10) ≠ 0 := ne_of_gt hf
  have hE : (Ray.create (-8e10, 0) (c, 0)).E = c := by
    have hdef : (Ray.create (-8e10, 0) (c, 0)).E =
        (1 - SagA.r_s / (Ray.create (-8e10, 0) (c, 0)).r) *
          Real.sqrt ((Ray.create (-8e10, 0) (c, 0)).dr * (Ray.create (-8e10, 0) (c, 0)).dr
              / ((1 - SagA.r_s / (Ray.create (-8e10, 0) (c, 0)).r)
                * (1 - SagA.r_s / (Ray.create (-8e10, 0) (c, 0)).r))
            + (Ray.create (-8e10, 0) (c, 0)).r * (Ray.create (-8e10, 0) (c, 0)).r
              * (Ray.create (-8e10, 0) (c, 0)).dphi * (Ray.create (-8e10, 0) (c, 0)).dphi
              / (1 - SagA.r_s / (Ray.create (-8e10, 0) (c, 0)).r)) := rfl
    rw [hdef, hr, hdr, hdphi]
    have harg : -c * -c / ((1 - SagA.r_s / 8e10) * (1 - SagA.r_s / 8e10))
        + (8e10 : ℝ) * 8e10 * 0 * 0 / (1 - SagA.r_s / 8e10)
        = c / (1 - SagA.r_s / 8e10) * (c / (1 - SagA.r_s / 8e10)) := by
      field_simp
      ring
    rw [harg, Real.sqrt_mul_self (le_of_lt (div_pos hcpos hf))]
    rw [mul_comm]
    exact div_mul_cancel₀ c hfne
  exact ⟨hr, hdr, hdphi, hE⟩

/-- C6: with the SagA mass 8.54e36 kg a photon created at (-8e10, 0) heading
at the origin with direction (c, 0) carries dphi = 0, dr = -c and E = c, so
each tick of the fixed-step dlam = 1 integration moves it inward by exactly
c meters; after 225 ticks its radius has dropped below the Schwarzschild
radius (about 1.2684e10 m) and every further tick leaves the whole state,
trail included, unchanged. -/
theorem C6_zero_impact_parameter_capture :
    (stepN 1 SagA.r_s 225 (Ray.create (-8e10, 0) (c, 0))).r ≤ SagA.r_s ∧
    ∀ m : ℕ, stepN 1 SagA.r_s m (stepN 1 SagA.r_s 225 (Ray.create (-8e10, 0) (c, 0)))
      = stepN 1 SagA.r_s 225 (Ray.create (-8e10, 0) (c, 0)) := by
  obtain ⟨hr0, hdr0, hdphi0, hE0⟩ := create_radial_fields
  have hcpos : (0 : ℝ) < c := by
    unfold c
    norm_num
  have hrs224 : SagA.r_s < 8e10 - 224 * c := by
    show 2 * G * 8.54e36 / (c * c) < 8e10 - 224 * c
    unfold G c
    norm_num
  have hrs225 : 8e10 - 225 * c ≤ SagA.r_s := by
    show 8e10 - 225 * c ≤ 2 * G * 8.54e36 / (c * c)
    unfold G c
    norm_num
  have key : ∀ n : ℕ, n ≤ 225 →
      (stepN 1 SagA.r_s n (Ray.create (-8e10, 0) (c, 0))).r = 8e10 - n * c ∧
      (stepN 1 SagA.r_s n (Ray.create (-8e10, 0) (c, 0))).dr = -c ∧
      (stepN 1 SagA.r_s n (Ray.create (-8e10, 0) (c, 0))).dphi = 0 ∧
      (stepN 1 SagA.r_s n (Ray.create (-8e10, 0) (c, 0))).E = c := by
    intro n
    induction n with
    | zero =>
        intro _
        refine ⟨?_, hdr0, hdphi0, hE0⟩
        show (Ray.create (-8e10, 0) (c, 0)).r = 8e10 - (0 : ℕ) * c
        rw [hr0]
        norm_num
    | succ k ih =>
        intro hk
        obtain ⟨hr, hdr, hdphi, hE⟩ := ih (Nat.le_of_succ_le hk)
        have hk224 : (k : ℝ) ≤ 224 := by
          exact_mod_cast Nat.le_of_succ_le_succ hk
        have hguard : SagA.r_s < (stepN 1 SagA.r_s k (Ray.create (-8e10, 0) (c, 0))).r := by
          rw [hr]
          have hmul : (k : ℝ) * c ≤ 224 * c := mul_le_mul_of_nonneg_right hk224 hcpos.le
          linarith
        obtain ⟨hsr, hsdr, hsdphi, hsE⟩ :=
          step_radial (stepN 1 SagA.r_s k (Ray.create (-8e10, 0) (c, 0))) 1 SagA.r_s
            hguard hdr hdphi hE
        have hiter : stepN 1 SagA.r_s (k + 1) (Ray.create (-8e10, 0) (c, 0))
            = (stepN 1 SagA.r_s k (Ray.create (-8e10, 0) (c, 0))).step 1 SagA.r_s := by
          unfold stepN
          rw [Function.iterate_succ_apply']
        refine ⟨?_, ?_, ?_, ?_⟩ <;> rw [hiter]
        · rw [hsr, hr]
          push_cast
          ring
        · exact hsdr
        · exact hsdphi
        · exact hsE
  obtain ⟨hr225, _, _, _⟩ := key 225 le_rfl
  have hcap : (stepN 1 SagA.r_s 225 (Ray.create (-8e10, 0) (c, 0))).r ≤ SagA.r_s := by
    rw [hr225]
    push_cast
    linarith
  exact ⟨hcap, fun m => stepN_fixed _ 1 SagA.r_s hcap m⟩

end BlackHoleSim
